import Mathlib

/-!
Shallow embedding of the recurring schedule resolution engine of the
smart-workforce-attendance backend, together with proofs about it.

Modelling conventions, matching the source's naive local-time behaviour
(times are stored as local wall clock values and never shifted by a
timezone offset, so every calendar day is exactly 24 hours long):

* An instant is an `Int`, the number of milliseconds since the local epoch
  (1970-01-01 00:00). A JS `Date` holding a start-of-day value is
  represented by its day index `d : Int` (days since 1970-01-01);
  its instant is `d * dayMillis`. 1970-01-01 was a Thursday, so
  `getDay` of day `d` is `(d + 4) % 7` (Euclidean remainder), exactly the
  JS `Date.prototype.getDay` convention (0 = Sunday).
* An `HH:mm` local-time string, already split by `split(':').map(Number)`,
  is represented by the pair of its numeric fields (`LocalTime`).
* Database queries are modelled by applying the query's `where` filters to
  a caller-supplied list of records; `orderBy` is a stable sort.
* JS `Array.prototype.sort` with a key comparator is a stable sort,
  modelled by `sortBy` (stable insertion sort).
-/

namespace SWA

/-- Milliseconds in one day (the engine never applies DST shifts). -/
def dayMillis : Int := 86400000

/-- A half-open time window `[start, stop)` of instants, the source's
`TimeWindow { start: Date; end: Date }` (the field `end` is a Lean keyword
and is rendered `stop`). -/
structure TimeWindow where
  start : Int
  stop : Int
deriving DecidableEq, Repr

/-- A parsed `HH:mm` local time string. -/
structure LocalTime where
  hours : Int
  minutes : Int
deriving DecidableEq, Repr

/-- Milliseconds after local midnight denoted by an `HH:mm` value. -/
def LocalTime.toMillis (t : LocalTime) : Int :=
  (t.hours * 60 + t.minutes) * 60000

/-- Source `startOfDay`: the instant of local midnight of day `d`
(`setHours(0,0,0,0)`). -/
def startOfDay (d : Int) : Int := d * dayMillis

/-- Source `endOfDay`: `setHours(23,59,59,999)`, one millisecond before the
next midnight. -/
def endOfDay (d : Int) : Int := d * dayMillis + (dayMillis - 1)

/-- Source `parseLocalTime` / `parseTime`: place an `HH:mm` value on day
`d` (`setHours(hours, minutes, 0, 0)`); no timezone conversion is done. -/
def parseLocalTime (t : LocalTime) (d : Int) : Int :=
  startOfDay d + t.toMillis

/-- JS `getDay()` of day index `d`: 0 = Sunday, ..., 6 = Saturday. -/
def getDay (d : Int) : Int := (d + 4).emod 7

/-- The resolver's weekday convention: 1 = Monday, ..., 7 = Sunday
(`dayOfWeek === 0 ? 7 : dayOfWeek`). -/
def weekdayNumber (d : Int) : Int :=
  if getDay d = 0 then 7 else getDay d

/-- Stable insertion of `x` into `l` by the key `key`: `x` goes before the
first element whose key is not smaller, hence before equal keys, which is
the correct stability for `sortBy` below. -/
def insertBy (key : α → Int) (x : α) : List α → List α
  | [] => [x]
  | y :: ys => if key x ≤ key y then x :: y :: ys else y :: insertBy key x ys

/-- Stable sort by an integer key, the model of JS
`Array.prototype.sort((a, b) => key(a) - key(b))` (stable per ES2019). -/
def sortBy (key : α → Int) : List α → List α
  | [] => []
  | x :: xs => insertBy key x (sortBy key xs)

/-- The fold step of the source's `mergeWindows` loop: `merged` holds the
already-emitted windows in reverse-free form via recursion; `last` is the
trailing accumulator window whose `end` is widened while following windows
overlap or touch it (`current.start <= last.end`). -/
def mergeLoop (last : TimeWindow) : List TimeWindow → List TimeWindow
  | [] => [last]
  | current :: rest =>
    if current.start ≤ last.stop then
      mergeLoop ⟨last.start, if last.stop < current.stop then current.stop else last.stop⟩ rest
    else
      last :: mergeLoop current rest

/-- Source `mergeWindows`: sort by start ascending, then fold adjacent or
overlapping windows, taking the maximum end. Empty input gives empty
output. -/
def mergeWindows (windows : List TimeWindow) : List TimeWindow :=
  match sortBy (fun w => w.start) windows with
  | [] => []
  | w :: ws => mergeLoop w ws

/-- The body of the inner loop of `subtractWindows`: the remainder of one
base window `w` after removing the cut `ex` — kept whole when it does not
overlap the cut (`window.end <= exception.start || window.start >=
exception.end`), else split into a before-cut and an after-cut piece,
each emitted only when nonempty. -/
def subtractPieces (ex w : TimeWindow) : List TimeWindow :=
  if w.stop ≤ ex.start ∨ ex.stop ≤ w.start then
    [w]
  else
    (if w.start < ex.start then [TimeWindow.mk w.start ex.start] else []) ++
    (if ex.stop < w.stop then [TimeWindow.mk ex.stop w.stop] else [])

/-- One pass of the source's `subtractWindows` outer loop: remove the cut
`ex` from every window of the current remainder set. -/
def subtractOne (ex : TimeWindow) : List TimeWindow → List TimeWindow
  | [] => []
  | w :: ws => subtractPieces ex w ++ subtractOne ex ws

/-- Source `subtractWindows`: apply each cut in turn to the current
remainder set. The result is not merged. -/
def subtractWindows (windows cuts : List TimeWindow) : List TimeWindow :=
  cuts.foldl (fun result ex => subtractOne ex result) windows

/-- The fields of a rule or exception consumed by `createWindowsForRule`
(the `timezone` label is carried by the source but never used). -/
structure WindowSpec where
  allDay : Bool
  startTimeLocal : Option LocalTime
  endTimeLocal : Option LocalTime
deriving DecidableEq, Repr

/-- Source `createWindowsForRule`: windows contributed by one rule (or
exception) on day `date`. All-day rules yield the full calendar day.
Timed rules parse both `HH:mm` values on `date`; when `end < start` the
window is split at midnight into two windows — note the second window's
`end` is the instant parsed on `date` itself, exactly as the source
computes it. Missing times on a non-all-day spec yield no windows. -/
def createWindowsForRule (rule : WindowSpec) (date : Int) : List TimeWindow :=
  if rule.allDay then
    [⟨startOfDay date, endOfDay date⟩]
  else
    match rule.startTimeLocal, rule.endTimeLocal with
    | some st, some et =>
      let start := parseLocalTime st date
      let stop := parseLocalTime et date
      if stop < start then
        [⟨start, endOfDay date⟩, ⟨startOfDay (date + 1), stop⟩]
      else
        [⟨start, stop⟩]
    | _, _ => []

/-- Prisma enum of exception kinds. -/
inductive ExceptionType where
  | REPLACE
  | REMOVE
  | ADD
deriving DecidableEq, Repr

/-- The fixed sort key of the exception ordering contract
(`{ REPLACE: 0, REMOVE: 1, ADD: 2 }`). -/
def ExceptionType.priority : ExceptionType → Int
  | .REPLACE => 0
  | .REMOVE => 1
  | .ADD => 2

/-- An `employeeUnavailabilityException` record, dates as day indices. -/
structure UnavailabilityException where
  dateLocal : Int
  type : ExceptionType
  allDay : Bool
  startTimeLocal : Option LocalTime
  endTimeLocal : Option LocalTime
deriving DecidableEq, Repr

/-- The window-producing fields of an exception. -/
def UnavailabilityException.spec (e : UnavailabilityException) : WindowSpec :=
  ⟨e.allDay, e.startTimeLocal, e.endTimeLocal⟩

/-- Source `applyException`: REPLACE discards the working set in favour of
the exception's own windows, REMOVE subtracts them, ADD merges the
union. -/
def applyException (windows : List TimeWindow) (exception : UnavailabilityException)
    (date : Int) : List TimeWindow :=
  let exceptionWindows := createWindowsForRule exception.spec date
  match exception.type with
  | .REPLACE => exceptionWindows
  | .REMOVE => subtractWindows windows exceptionWindows
  | .ADD => mergeWindows (windows ++ exceptionWindows)

/-- Prisma enum `UnavailabilityRuleStatus`. -/
inductive RuleStatus where
  | ACTIVE
  | INACTIVE
deriving DecidableEq, Repr

/-- An `employeeUnavailabilityRule` record, effective bounds as day
indices (the schema stores them as dates). -/
structure UnavailabilityRule where
  byweekday : List Int
  allDay : Bool
  startTimeLocal : Option LocalTime
  endTimeLocal : Option LocalTime
  effectiveFrom : Option Int
  effectiveTo : Option Int
  status : RuleStatus
deriving DecidableEq, Repr

/-- The window-producing fields of a rule. -/
def UnavailabilityRule.spec (r : UnavailabilityRule) : WindowSpec :=
  ⟨r.allDay, r.startTimeLocal, r.endTimeLocal⟩

/-- Prisma filter `field: { lte: b }` on a nullable column: null never
matches. -/
def optLe (x : Option Int) (b : Int) : Bool :=
  match x with
  | none => false
  | some v => decide (v ≤ b)

/-- Prisma filter `field: { gte: b }` on a nullable column. -/
def optGe (x : Option Int) (b : Int) : Bool :=
  match x with
  | none => false
  | some v => decide (b ≤ v)

/-- The `where` clause of the resolver's rule query: active rules whose
effective window can touch the range, as the source's four-clause `OR`. -/
def ruleEligible (fromDate toDate : Int) (r : UnavailabilityRule) : Bool :=
  decide (r.status = RuleStatus.ACTIVE) &&
  ((r.effectiveFrom.isNone && r.effectiveTo.isNone) ||
   (optLe r.effectiveFrom toDate && r.effectiveTo.isNone) ||
   (r.effectiveFrom.isNone && optGe r.effectiveTo fromDate) ||
   (optLe r.effectiveFrom toDate && optGe r.effectiveTo fromDate))

/-- The calendar days visited by the source's `while (current <= to)`
loop, starting at `fromDate` and stepping one day at a time. -/
def dateRange (fromDate toDate : Int) : List Int :=
  (List.range (toDate + 1 - fromDate).toNat).map (fun i => fromDate + i)

/-- One entry of `expandWeeklyRule`'s result. -/
structure Occurrence where
  date : Int
  windows : List TimeWindow
deriving DecidableEq, Repr

/-- Source `expandWeeklyRule`: visit every day of the query range, keep
the days whose weekday is in the rule's weekday set and which lie inside
the rule's effective bounds (open bounds default to the query range), and
attach that day's windows. -/
def expandWeeklyRule (rule : UnavailabilityRule) (fromDate toDate : Int) :
    List Occurrence :=
  let effFrom := rule.effectiveFrom.getD fromDate
  let effTo := rule.effectiveTo.getD toDate
  (dateRange fromDate toDate).filterMap (fun d =>
    if weekdayNumber d ∈ rule.byweekday ∧ effFrom ≤ d ∧ d ≤ effTo then
      some ⟨d, createWindowsForRule rule.spec d⟩
    else none)

/-- Source `ResolvedUnavailability`: one resolved day. -/
structure ResolvedUnavailability where
  date : Int
  windows : List TimeWindow
deriving DecidableEq, Repr

/-- The dates present in a resolution accumulator. -/
def entryDates (m : List ResolvedUnavailability) : List Int :=
  m.map (fun r => r.date)

/-- The `resolvedByDate` map accumulation for one rule occurrence:
append the occurrence's windows to the day's entry, creating the entry at
the end when absent (JS `Map` insertion order). -/
def addOccurrence (m : List ResolvedUnavailability) (d : Int)
    (ws : List TimeWindow) : List ResolvedUnavailability :=
  match m with
  | [] => [⟨d, ws⟩]
  | r :: rest =>
    if r.date = d then ⟨r.date, r.windows ++ ws⟩ :: rest
    else r :: addOccurrence rest d ws

/-- JS `Map.prototype.set`: replace the existing entry in place, or append
a new one. -/
def setEntry (m : List ResolvedUnavailability) (d : Int)
    (ws : List TimeWindow) : List ResolvedUnavailability :=
  match m with
  | [] => [⟨d, ws⟩]
  | r :: rest =>
    if r.date = d then ⟨d, ws⟩ :: rest
    else r :: setEntry rest d ws

/-- JS `Map.prototype.get` on the accumulator. -/
def findEntry (m : List ResolvedUnavailability) (d : Int) :
    Option ResolvedUnavailability :=
  m.find? (fun r => decide (r.date = d))

/-- Add one exception to the `exceptionsByDate` grouping, preserving
first-seen key order and within-key order. -/
def addToGroup (groups : List (Int × List UnavailabilityException))
    (e : UnavailabilityException) : List (Int × List UnavailabilityException) :=
  match groups with
  | [] => [(e.dateLocal, [e])]
  | g :: gs =>
    if g.1 = e.dateLocal then (g.1, g.2 ++ [e]) :: gs
    else g :: addToGroup gs e

/-- The source's grouping of the loaded exceptions by date key. -/
def groupByDate (es : List UnavailabilityException) :
    List (Int × List UnavailabilityException) :=
  es.foldl addToGroup []

/-- The per-date exception pass (source lines sorting `dateExceptions` by
the fixed priority and folding `applyException` over them). -/
def applyDateExceptions (windows0 : List TimeWindow)
    (dateExceptions : List UnavailabilityException) (date : Int) :
    List TimeWindow :=
  let sortedExceptions := sortBy (fun e => e.type.priority) dateExceptions
  sortedExceptions.foldl (fun w e => applyException w e date) windows0

/-- The exception phase of the resolver: for each date group, look up the
rule-derived windows, apply the sorted exceptions, and (when the guard
holds) store the merged result back. -/
def applyExceptionPhase (afterRules : List ResolvedUnavailability)
    (groups : List (Int × List UnavailabilityException)) :
    List ResolvedUnavailability :=
  groups.foldl (fun m g =>
    let windows0 :=
      match findEntry m g.1 with
      | some r => r.windows
      | none => []
    let windows := applyDateExceptions windows0 g.2 g.1
    if 0 < windows.length ∨ 0 < g.2.length then
      setEntry m g.1 (mergeWindows windows)
    else m) afterRules

/-- The rule phase of the resolver: expand every loaded rule and union
its occurrence windows into the per-date accumulator, in rule order. -/
def expandRulesPhase (rules : List UnavailabilityRule)
    (fromDate toDate : Int) : List ResolvedUnavailability :=
  rules.foldl (fun m rule =>
    (expandWeeklyRule rule fromDate toDate).foldl
      (fun acc occurrence => addOccurrence acc occurrence.date occurrence.windows) m) []

/-- Source `resolveUnavailability` as a pure function: the database reads
become filters over the supplied record lists, then rules are expanded
into the per-date accumulator, exceptions are applied per date, and the
entries are returned sorted by date. Dates are day indices, so the
source's initial `startOfDay` normalization is the identity here. -/
def resolveUnavailability (rules : List UnavailabilityRule)
    (exceptions : List UnavailabilityException)
    (fromDate toDate : Int) : List ResolvedUnavailability :=
  sortBy (fun r => r.date)
    (applyExceptionPhase
      (expandRulesPhase (rules.filter (ruleEligible fromDate toDate)) fromDate toDate)
      (groupByDate (sortBy (fun e => e.dateLocal)
        (exceptions.filter (fun e =>
          decide (fromDate ≤ e.dateLocal) && decide (e.dateLocal ≤ toDate))))))

/-- Result shape of the unavailability constraint checker. -/
structure UnavailabilityConstraintResult where
  blocked : Bool
  allowed : Bool
  reason : Option String
deriving DecidableEq, Repr

/-- The checker's lookup of the resolved day for the shift date (source
`resolved.find((item) => dateKey(item.date) === dateKey)` over a
single-day resolution: the range passed is `[date, date]` because
`startOfDay(nextDay - 1ms)` is the same day). -/
def lookupResolvedDay (rules : List UnavailabilityRule)
    (exceptions : List UnavailabilityException) (date : Int) :
    Option ResolvedUnavailability :=
  (resolveUnavailability rules exceptions date date).find?
    (fun item => decide (item.date = date))

/-- Source `checkUnavailability` (resolver-backed variant): resolve the
single shift date; no resolved day or an empty window list allows the
shift; otherwise the shift is blocked exactly when some window passes the
half-open overlap test. -/
def checkUnavailability (rules : List UnavailabilityRule)
    (exceptions : List UnavailabilityException)
    (date shiftStartTime shiftEndTime : Int) : UnavailabilityConstraintResult :=
  match lookupResolvedDay rules exceptions date with
  | none => ⟨false, true, none⟩
  | some day =>
    if day.windows.isEmpty then ⟨false, true, none⟩
    else if day.windows.any (fun w =>
        decide (shiftStartTime < w.stop) && decide (shiftEndTime > w.start)) then
      ⟨true, false, some "Unavailable during this time"⟩
    else ⟨false, true, none⟩

/-- Prisma enum `DayOfWeek` used by availability windows. -/
inductive DayOfWeek where
  | SUNDAY
  | MONDAY
  | TUESDAY
  | WEDNESDAY
  | THURSDAY
  | FRIDAY
  | SATURDAY
deriving DecidableEq, Repr

/-- Source `getDayOfWeek`: index the enum table by JS `getDay()`. The
catch-all arm is unreachable because `getDay` is a remainder mod 7. -/
def getDayOfWeek (d : Int) : DayOfWeek :=
  match (getDay d).toNat with
  | 0 => .SUNDAY
  | 1 => .MONDAY
  | 2 => .TUESDAY
  | 3 => .WEDNESDAY
  | 4 => .THURSDAY
  | 5 => .FRIDAY
  | _ => .SATURDAY

/-- A recurring availability window row. -/
structure AvailabilityWindow where
  dayOfWeek : DayOfWeek
  startTime : LocalTime
  endTime : LocalTime
deriving DecidableEq, Repr

/-- A date-specific availability override row; null times mean the whole
day is unavailable. -/
structure AvailabilityOverride where
  overrideDate : Int
  startTime : Option LocalTime
  endTime : Option LocalTime
  reason : String
deriving DecidableEq, Repr

/-- An `employeeAvailability` record with its included windows and
overrides. -/
structure EmployeeAvailability where
  effectiveFrom : Option Int
  effectiveTo : Option Int
  windows : List AvailabilityWindow
  overrides : List AvailabilityOverride
deriving DecidableEq, Repr

/-- Result shape of the availability constraint checker. -/
structure AvailabilityConstraintResult where
  allowed : Bool
  blocked : Bool
  requiresOverride : Bool
  reason : Option String
deriving DecidableEq, Repr

/-- Source `timeStringToMinutes`: minutes after midnight of an `HH:mm`
value. -/
def timeStringToMinutes (t : LocalTime) : Int :=
  t.hours * 60 + t.minutes

/-- Source `timeToMinutes`: `getHours() * 60 + getMinutes()` of an
instant, i.e. whole minutes into its local day. -/
def timeToMinutes (t : Int) : Int :=
  (t.emod dayMillis) / 60000

/-- Source `checkAvailability`: no record allows the shift; a record whose
effective bounds exclude the shift date allows it; a date-specific
override takes precedence (null times block the whole day, timed
overrides require instant containment); otherwise the shift must be
contained, in minutes of day, in some recurring window of the shift
date's weekday. The overrides list is filtered to the shift date as the
source's include query does. -/
def checkAvailability (availability : Option EmployeeAvailability)
    (shiftDate shiftStartTime shiftEndTime : Int) : AvailabilityConstraintResult :=
  match availability with
  | none => ⟨true, false, false, none⟩
  | some a =>
    if ∃ f, a.effectiveFrom = some f ∧ shiftDate < f then
      ⟨true, false, false, some "Availability not yet effective"⟩
    else if ∃ t, a.effectiveTo = some t ∧ t < shiftDate then
      ⟨true, false, false, some "Availability has expired"⟩
    else
      match a.overrides.filter (fun o => decide (o.overrideDate = shiftDate)) with
      | override :: _ =>
        match override.startTime, override.endTime with
        | some st, some et =>
          if parseLocalTime st shiftDate ≤ shiftStartTime ∧
              shiftEndTime ≤ parseLocalTime et shiftDate then
            ⟨true, false, false, none⟩
          else
            ⟨false, true, true, some ("Override: " ++ override.reason)⟩
        | _, _ => ⟨false, true, true, some ("Override: " ++ override.reason)⟩
      | [] =>
        if (a.windows.filter
            (fun w => decide (w.dayOfWeek = getDayOfWeek shiftDate))).isEmpty then
          ⟨false, true, true, some "No availability defined for this day"⟩
        else
          if (a.windows.filter
              (fun w => decide (w.dayOfWeek = getDayOfWeek shiftDate))).any (fun w =>
              decide (timeStringToMinutes w.startTime ≤ timeToMinutes shiftStartTime) &&
              decide (timeToMinutes shiftEndTime ≤ timeStringToMinutes w.endTime)) then
            ⟨true, false, false, none⟩
          else
            ⟨false, true, true, some "Shift falls outside defined availability windows"⟩

/-- An existing `Shift` row of the same employee, as the conflict query
sees it. -/
structure Shift where
  id : Nat
  startAt : Int
  endAt : Int
deriving DecidableEq, Repr

/-- Outcome of `ShiftsService.create` on the validation-and-conflict path
(the employee and work-location existence lookups are external
collaborators and are outside this model). -/
inductive CreateShiftResult where
  | badRequest (message : String)
  | conflict (shift : Shift)
  | created (startAt endAt paidBreakMinutes unpaidBreakMinutes : Int)
deriving DecidableEq, Repr

/-- Source `ShiftsService.create`: reject inverted or empty intervals,
negative break minutes, and breaks exceeding the shift duration (the
source compares `paid + unpaid > (endAt - startAt) / 60000` with exact
quotient, rendered here by cross-multiplication); then report the first
existing shift of the employee passing the half-open overlap test
`startAt < candidateEnd && endAt > candidateStart` as a conflict. -/
def createShift (existingShifts : List Shift)
    (startAt endAt paidBreakMinutes unpaidBreakMinutes : Int) : CreateShiftResult :=
  if startAt ≥ endAt then
    .badRequest "startAt must be before endAt"
  else if paidBreakMinutes < 0 ∨ unpaidBreakMinutes < 0 then
    .badRequest "Break minutes must be greater than or equal to 0"
  else if (paidBreakMinutes + unpaidBreakMinutes) * 60000 > endAt - startAt then
    .badRequest "Total break minutes cannot exceed shift duration"
  else
    match existingShifts.find? (fun s =>
        decide (s.startAt < endAt) && decide (s.endAt > startAt)) with
    | some overlappingShift => .conflict overlappingShift
    | none => .created startAt endAt paidBreakMinutes unpaidBreakMinutes

/-- The resolution endpoint (`UnavailabilityManagerController.
getUnavailability` after date parsing): reject an inverted range with an
invalid-argument error, otherwise delegate to the resolver. -/
def getUnavailability (rules : List UnavailabilityRule)
    (exceptions : List UnavailabilityException)
    (fromDate toDate : Int) : Except String (List ResolvedUnavailability) :=
  if fromDate > toDate then
    .error "fromDate must be before or equal to toDate"
  else
    .ok (resolveUnavailability rules exceptions fromDate toDate)

/-! ### Sorting infrastructure lemmas -/

theorem insertBy_perm (key : α → Int) (x : α) (l : List α) :
    List.Perm (insertBy key x l) (x :: l) := by
  induction l with
  | nil => simp [insertBy]
  | cons y ys ih =>
    simp only [insertBy]
    split
    · exact List.Perm.refl _
    · exact List.Perm.trans (List.Perm.cons y ih) (List.Perm.swap x y ys)

theorem sortBy_perm (key : α → Int) (l : List α) :
    List.Perm (sortBy key l) l := by
  induction l with
  | nil => exact List.Perm.refl _
  | cons x xs ih =>
    exact List.Perm.trans (insertBy_perm key x (sortBy key xs)) (List.Perm.cons x ih)

theorem mem_sortBy {key : α → Int} {l : List α} {x : α} :
    x ∈ sortBy key l ↔ x ∈ l :=
  (sortBy_perm key l).mem_iff

theorem mem_insertBy {key : α → Int} {l : List α} {x y : α} :
    y ∈ insertBy key x l ↔ y = x ∨ y ∈ l := by
  rw [(insertBy_perm key x l).mem_iff, List.mem_cons]

theorem insertBy_pairwise {key : α → Int} {l : List α} {x : α}
    (h : l.Pairwise (fun a b => key a ≤ key b)) :
    (insertBy key x l).Pairwise (fun a b => key a ≤ key b) := by
  induction l with
  | nil => simp [insertBy]
  | cons y ys ih =>
    rw [List.pairwise_cons] at h
    simp only [insertBy]
    split
    · rename_i hxy
      refine List.pairwise_cons.mpr ⟨?_, List.pairwise_cons.mpr h⟩
      intro z hz
      rcases List.mem_cons.mp hz with hz | hz
      · exact hz ▸ hxy
      · exact le_trans hxy (h.1 z hz)
    · rename_i hxy
      refine List.pairwise_cons.mpr ⟨?_, ih h.2⟩
      intro z hz
      rcases mem_insertBy.mp hz with hz | hz
      · exact hz ▸ le_of_not_le hxy
      · exact h.1 z hz

theorem sortBy_pairwise (key : α → Int) (l : List α) :
    (sortBy key l).Pairwise (fun a b => key a ≤ key b) := by
  induction l with
  | nil => simp [sortBy]
  | cons x xs ih => exact insertBy_pairwise ih

theorem insertBy_eq_cons {key : α → Int} {l : List α} {x : α}
    (h : ∀ y ∈ l, key x ≤ key y) : insertBy key x l = x :: l := by
  cases l with
  | nil => rfl
  | cons y ys =>
    simp only [insertBy, if_pos (h y (List.mem_cons_self y ys))]

theorem insertBy_append_left {key : α → Int} {a b : List α} {x : α}
    (h : ∀ y ∈ a, ¬ key x ≤ key y) :
    insertBy key x (a ++ b) = a ++ insertBy key x b := by
  induction a with
  | nil => rfl
  | cons y ys ih =>
    simp only [List.cons_append, insertBy,
      if_neg (h y (List.mem_cons_self y ys))]
    rw [List.append_eq, ih (fun z hz => h z (List.mem_cons_of_mem y hz))]

theorem sortBy_eq_of_pairwise {key : α → Int} {l : List α}
    (h : l.Pairwise (fun a b => key a ≤ key b)) : sortBy key l = l := by
  induction l with
  | nil => rfl
  | cons x xs ih =>
    rw [List.pairwise_cons] at h
    simp only [sortBy]
    rw [ih h.2, insertBy_eq_cons h.1]

/-! ### Merge lemmas -/

/-- The relation linking consecutive windows of a merged list: ascending
starts with a strict gap between one window's end and the next start
(merged output is non-overlapping and non-adjacent). -/
def mergedRel (a b : TimeWindow) : Prop :=
  a.start ≤ b.start ∧ a.stop < b.start

instance : IsTrans TimeWindow mergedRel where
  trans _ _ _ hab hbc :=
    ⟨le_trans hab.1 hbc.1, lt_of_lt_of_le hab.2 hbc.1⟩

theorem mergeLoop_head (last : TimeWindow) (ws : List TimeWindow) :
    ∃ st rest, mergeLoop last ws = TimeWindow.mk last.start st :: rest := by
  induction ws generalizing last with
  | nil => exact ⟨last.stop, [], rfl⟩
  | cons c rest ih =>
    simp only [mergeLoop]
    split
    · exact ih _
    · exact ⟨last.stop, mergeLoop c rest, rfl⟩

theorem mergeLoop_chain {last : TimeWindow} {ws : List TimeWindow}
    (h : (last :: ws).Pairwise (fun a b => a.start ≤ b.start)) :
    (mergeLoop last ws).Chain' mergedRel := by
  induction ws generalizing last with
  | nil => simp [mergeLoop]
  | cons c rest ih =>
    rw [List.pairwise_cons] at h
    simp only [mergeLoop]
    split
    · rename_i hcs
      apply ih
      refine List.pairwise_cons.mpr ⟨?_, (List.pairwise_cons.mp h.2).2⟩
      intro z hz
      exact h.1 z (List.mem_cons_of_mem c hz)
    · rename_i hcs
      have hrec := ih h.2
      obtain ⟨st, tail, heq⟩ := mergeLoop_head c rest
      rw [heq] at hrec ⊢
      refine List.chain'_cons'.mpr ⟨?_, hrec⟩
      intro y hy
      simp only [List.head?_cons, Option.mem_def, Option.some.injEq] at hy
      subst hy
      exact ⟨h.1 c (List.mem_cons_self c rest), lt_of_not_le hcs⟩

theorem mergeWindows_chain (w : List TimeWindow) :
    (mergeWindows w).Chain' mergedRel := by
  have hp := sortBy_pairwise (fun v => v.start) w
  unfold mergeWindows
  cases hsort : sortBy (fun v => v.start) w with
  | nil => simp
  | cons x xs =>
    rw [hsort] at hp
    exact mergeLoop_chain hp

theorem mergeWindows_pairwise (w : List TimeWindow) :
    (mergeWindows w).Pairwise mergedRel :=
  List.chain'_iff_pairwise.mp (mergeWindows_chain w)

theorem mergeLoop_eq_of_chain {last : TimeWindow} {ws : List TimeWindow}
    (h : (last :: ws).Chain' mergedRel) : mergeLoop last ws = last :: ws := by
  induction ws generalizing last with
  | nil => rfl
  | cons c rest ih =>
    have hlc : mergedRel last c := (List.chain'_cons.mp h).1
    simp only [mergeLoop, if_neg (not_le_of_lt hlc.2)]
    rw [ih (List.chain'_cons.mp h).2]

theorem mergeWindows_eq_of_chain {l : List TimeWindow}
    (h : l.Chain' mergedRel) : mergeWindows l = l := by
  have hp : l.Pairwise (fun a b => a.start ≤ b.start) :=
    (List.chain'_iff_pairwise.mp h).imp (fun hab => hab.1)
  unfold mergeWindows
  rw [sortBy_eq_of_pairwise hp]
  cases l with
  | nil => rfl
  | cons x xs => exact mergeLoop_eq_of_chain h

theorem mergeWindows_idem (w : List TimeWindow) :
    mergeWindows (mergeWindows w) = mergeWindows w :=
  mergeWindows_eq_of_chain (mergeWindows_chain w)

/-! ### Subtract lemmas -/

theorem mem_subtractOne {ex v : TimeWindow} {l : List TimeWindow} :
    v ∈ subtractOne ex l ↔ ∃ w ∈ l, v ∈ subtractPieces ex w := by
  induction l with
  | nil => simp [subtractOne]
  | cons w ws ih =>
    simp only [subtractOne, List.mem_append, ih, List.mem_cons]
    constructor
    · rintro (hv | ⟨u, hu, hvu⟩)
      · exact ⟨w, Or.inl rfl, hv⟩
      · exact ⟨u, Or.inr hu, hvu⟩
    · rintro ⟨u, hu | hu, hvu⟩
      · exact Or.inl (hu ▸ hvu)
      · exact Or.inr ⟨u, hu, hvu⟩

/-- In the subtract loop, every window that survives or is produced while
cutting with `c` is nonempty and contained in its original container,
provided it was; and windows contained in the cut itself vanish. -/
theorem subtractPieces_inv {c u v w : TimeWindow}
    (hv : v.start < v.stop) (hcont : u.start ≤ v.start ∧ v.stop ≤ u.stop)
    (hw : w ∈ subtractPieces c v) :
    w.start < w.stop ∧ u.start ≤ w.start ∧ w.stop ≤ u.stop ∧
      (w.stop ≤ c.start ∨ c.stop ≤ w.start) := by
  unfold subtractPieces at hw
  split at hw
  · rename_i hkeep
    simp only [List.mem_singleton] at hw
    subst hw
    exact ⟨hv, hcont.1, hcont.2, hkeep⟩
  · rename_i hover
    push_neg at hover
    simp only [List.mem_append] at hw
    rcases hw with hw | hw
    · split at hw
      · rename_i hlt
        simp only [List.mem_singleton] at hw
        subst hw
        exact ⟨hlt, hcont.1, le_trans (le_of_lt hover.1) hcont.2, Or.inl (le_refl _)⟩
      · simp at hw
    · split at hw
      · rename_i hlt
        simp only [List.mem_singleton] at hw
        subst hw
        exact ⟨hlt, le_trans hcont.1 (le_of_lt hover.2), hcont.2, Or.inr (le_refl _)⟩
      · simp at hw

/-- A window fully covered by the cut leaves no pieces. -/
theorem subtractPieces_covered {c v : TimeWindow}
    (hv : v.start < v.stop) (h1 : c.start ≤ v.start) (h2 : v.stop ≤ c.stop) :
    subtractPieces c v = [] := by
  unfold subtractPieces
  rw [if_neg, if_neg (not_lt.mpr h1), if_neg (not_lt.mpr h2)]
  · rfl
  · push_neg
    exact ⟨lt_of_le_of_lt h1 hv, lt_of_lt_of_le hv h2⟩

theorem subtract_self_aux (cuts : List TimeWindow) :
    ∀ state : List TimeWindow,
      (∀ v ∈ state, v.start < v.stop ∧
        ∃ u ∈ cuts, u.start ≤ v.start ∧ v.stop ≤ u.stop) →
      cuts.foldl (fun result ex => subtractOne ex result) state = [] := by
  induction cuts with
  | nil =>
    intro state h
    cases state with
    | nil => rfl
    | cons v vs =>
      obtain ⟨_, u, hu, _⟩ := h v (List.mem_cons_self v vs)
      exact absurd hu (List.not_mem_nil u)
  | cons c cs ih =>
    intro state h
    simp only [List.foldl_cons]
    apply ih
    intro w hw
    obtain ⟨v, hv, hwv⟩ := mem_subtractOne.mp hw
    obtain ⟨hvne, u, hu, hcont⟩ := h v hv
    rcases List.mem_cons.mp hu with hu | hu
    · subst hu
      rw [subtractPieces_covered hvne hcont.1 hcont.2] at hwv
      exact absurd hwv (List.not_mem_nil w)
    · obtain ⟨hw1, hw2, hw3, _⟩ := subtractPieces_inv hvne hcont hwv
      exact ⟨hw1, u, hu, hw2, hw3⟩

theorem subtractWindows_self {w : List TimeWindow}
    (h : ∀ v ∈ w, v.start < v.stop) : subtractWindows w w = [] := by
  apply subtract_self_aux
  intro v hv
  exact ⟨h v hv, v, hv, le_refl _, le_refl _⟩

theorem subtractWindows_nil (w : List TimeWindow) :
    subtractWindows w [] = w := rfl

/-! ### Exception priority sort lemmas -/

theorem priority_nonneg (t : ExceptionType) : 0 ≤ t.priority := by
  cases t <;> simp [ExceptionType.priority]

/-- The stable sort by priority rearranges any exception list into the
REPLACE group, then the REMOVE group, then the ADD group, keeping the
supplied order only inside each group. -/
theorem sortBy_priority_decomposition (es : List UnavailabilityException) :
    sortBy (fun e => e.type.priority) es =
      es.filter (fun e => decide (e.type = ExceptionType.REPLACE)) ++
      es.filter (fun e => decide (e.type = ExceptionType.REMOVE)) ++
      es.filter (fun e => decide (e.type = ExceptionType.ADD)) := by
  induction es with
  | nil => rfl
  | cons e es ih =>
    have hmem0 : ∀ x ∈ es.filter (fun e => decide (e.type = ExceptionType.REPLACE)),
        x.type.priority = 0 := by
      intro x hx
      have := List.of_mem_filter hx
      simp only [decide_eq_true_eq] at this
      simp [this, ExceptionType.priority]
    have hmem1 : ∀ x ∈ es.filter (fun e => decide (e.type = ExceptionType.REMOVE)),
        x.type.priority = 1 := by
      intro x hx
      have := List.of_mem_filter hx
      simp only [decide_eq_true_eq] at this
      simp [this, ExceptionType.priority]
    have hmem2 : ∀ x ∈ es.filter (fun e => decide (e.type = ExceptionType.ADD)),
        x.type.priority = 2 := by
      intro x hx
      have := List.of_mem_filter hx
      simp only [decide_eq_true_eq] at this
      simp [this, ExceptionType.priority]
    simp only [sortBy, ih]
    cases he : e.type with
    | REPLACE =>
      have hp : e.type.priority = 0 := by simp [he, ExceptionType.priority]
      have hcons : insertBy (fun x => x.type.priority) e
          (es.filter (fun x => decide (x.type = ExceptionType.REPLACE)) ++
           es.filter (fun x => decide (x.type = ExceptionType.REMOVE)) ++
           es.filter (fun x => decide (x.type = ExceptionType.ADD))) =
          e :: (es.filter (fun x => decide (x.type = ExceptionType.REPLACE)) ++
           es.filter (fun x => decide (x.type = ExceptionType.REMOVE)) ++
           es.filter (fun x => decide (x.type = ExceptionType.ADD))) := by
        apply insertBy_eq_cons
        intro y hy
        rw [hp]
        exact priority_nonneg y.type
      rw [hcons]
      simp [List.filter_cons, he]
    | REMOVE =>
      have hp : e.type.priority = 1 := by simp [he, ExceptionType.priority]
      have h1 : insertBy (fun x => x.type.priority) e
          (es.filter (fun x => decide (x.type = ExceptionType.REPLACE)) ++
           (es.filter (fun x => decide (x.type = ExceptionType.REMOVE)) ++
            es.filter (fun x => decide (x.type = ExceptionType.ADD)))) =
          es.filter (fun x => decide (x.type = ExceptionType.REPLACE)) ++
          insertBy (fun x => x.type.priority) e
            (es.filter (fun x => decide (x.type = ExceptionType.REMOVE)) ++
             es.filter (fun x => decide (x.type = ExceptionType.ADD))) := by
        apply insertBy_append_left
        intro y hy
        rw [hp, hmem0 y hy]
        norm_num
      have h2 : insertBy (fun x => x.type.priority) e
          (es.filter (fun x => decide (x.type = ExceptionType.REMOVE)) ++
           es.filter (fun x => decide (x.type = ExceptionType.ADD))) =
          e :: (es.filter (fun x => decide (x.type = ExceptionType.REMOVE)) ++
           es.filter (fun x => decide (x.type = ExceptionType.ADD))) := by
        apply insertBy_eq_cons
        intro y hy
        rw [hp]
        rcases List.mem_append.mp hy with hy | hy
        · rw [hmem1 y hy]
        · rw [hmem2 y hy]; norm_num
      rw [List.append_assoc, h1, h2]
      simp [List.filter_cons, he, List.append_assoc]
    | ADD =>
      have hp : e.type.priority = 2 := by simp [he, ExceptionType.priority]
      have h1 : insertBy (fun x => x.type.priority) e
          (es.filter (fun x => decide (x.type = ExceptionType.REPLACE)) ++
           (es.filter (fun x => decide (x.type = ExceptionType.REMOVE)) ++
            es.filter (fun x => decide (x.type = ExceptionType.ADD)))) =
          es.filter (fun x => decide (x.type = ExceptionType.REPLACE)) ++
          insertBy (fun x => x.type.priority) e
            (es.filter (fun x => decide (x.type = ExceptionType.REMOVE)) ++
             es.filter (fun x => decide (x.type = ExceptionType.ADD))) := by
        apply insertBy_append_left
        intro y hy
        rw [hp, hmem0 y hy]
        norm_num
      have h2 : insertBy (fun x => x.type.priority) e
          (es.filter (fun x => decide (x.type = ExceptionType.REMOVE)) ++
           es.filter (fun x => decide (x.type = ExceptionType.ADD))) =
          es.filter (fun x => decide (x.type = ExceptionType.REMOVE)) ++
          insertBy (fun x => x.type.priority) e
            (es.filter (fun x => decide (x.type = ExceptionType.ADD))) := by
        apply insertBy_append_left
        intro y hy
        rw [hp, hmem1 y hy]
        norm_num
      have h3 : insertBy (fun x => x.type.priority) e
          (es.filter (fun x => decide (x.type = ExceptionType.ADD))) =
          e :: es.filter (fun x => decide (x.type = ExceptionType.ADD)) := by
        apply insertBy_eq_cons
        intro y hy
        rw [hp, hmem2 y hy]
      rw [List.append_assoc, h1, h2, h3]
      simp [List.filter_cons, he, List.append_assoc]

/-! ### Grouping and accumulator lemmas -/

theorem foldl_preserve {P : β → Prop} {f : β → α → β}
    (hstep : ∀ s a, P s → P (f s a)) :
    ∀ (l : List α) (s : β), P s → P (l.foldl f s) := by
  intro l
  induction l with
  | nil => intro s hs; exact hs
  | cons a l ih =>
    intro s hs
    exact ih (f s a) (hstep s a hs)

theorem mem_keys_addToGroup {gs : List (Int × List UnavailabilityException)}
    {e : UnavailabilityException} {k : Int} :
    k ∈ (addToGroup gs e).map Prod.fst ↔
      k ∈ gs.map Prod.fst ∨ k = e.dateLocal := by
  induction gs with
  | nil => simp [addToGroup]
  | cons g gs ih =>
    simp only [addToGroup]
    split
    · rename_i hg
      simp only [List.map_cons, List.mem_cons, ih]
      constructor
      · rintro (h | h)
        · exact Or.inl (Or.inl h)
        · exact Or.inl (Or.inr h)
      · rintro (⟨h | h⟩ | h)
        · exact Or.inl h
        · exact Or.inr h
        · exact Or.inl (h ▸ hg.symm ▸ rfl)
    · simp only [List.map_cons, List.mem_cons, ih, or_assoc]

theorem mem_keys_groupByDate_aux {k : Int} :
    ∀ (es : List UnavailabilityException)
      (gs : List (Int × List UnavailabilityException)),
      k ∈ (es.foldl addToGroup gs).map Prod.fst ↔
        k ∈ gs.map Prod.fst ∨ ∃ e ∈ es, e.dateLocal = k := by
  intro es
  induction es with
  | nil => simp
  | cons e es ih =>
    intro gs
    simp only [List.foldl_cons, ih, mem_keys_addToGroup, List.mem_cons]
    constructor
    · rintro (⟨h | h⟩ | ⟨x, hx, hk⟩)
      · exact Or.inl h
      · exact Or.inr ⟨e, Or.inl rfl, h.symm⟩
      · exact Or.inr ⟨x, Or.inr hx, hk⟩
    · rintro (h | ⟨x, hx | hx, hk⟩)
      · exact Or.inl (Or.inl h)
      · exact Or.inl (Or.inr (hx ▸ hk.symm))
      · exact Or.inr ⟨x, hx, hk⟩

theorem mem_keys_groupByDate {es : List UnavailabilityException} {k : Int} :
    k ∈ (groupByDate es).map Prod.fst ↔ ∃ e ∈ es, e.dateLocal = k := by
  unfold groupByDate
  rw [mem_keys_groupByDate_aux]
  simp

theorem addToGroup_snd_ne_nil {gs : List (Int × List UnavailabilityException)}
    {e : UnavailabilityException}
    (h : ∀ g ∈ gs, g.2 ≠ []) : ∀ g ∈ addToGroup gs e, g.2 ≠ [] := by
  induction gs with
  | nil =>
    intro g hg
    simp only [addToGroup, List.mem_singleton] at hg
    subst hg
    simp
  | cons g0 gs ih =>
    intro g hg
    simp only [addToGroup] at hg
    split at hg
    · rcases List.mem_cons.mp hg with hg | hg
      · subst hg
        simp
      · exact h g (List.mem_cons_of_mem g0 hg)
    · rcases List.mem_cons.mp hg with hg | hg
      · exact hg ▸ h g0 (List.mem_cons_self g0 gs)
      · exact ih (fun x hx => h x (List.mem_cons_of_mem g0 hx)) g hg

theorem groupByDate_snd_ne_nil {es : List UnavailabilityException} :
    ∀ g ∈ groupByDate es, g.2 ≠ [] := by
  unfold groupByDate
  exact foldl_preserve
    (P := fun gs : List (Int × List UnavailabilityException) => ∀ g ∈ gs, g.2 ≠ [])
    (fun gs e hgs => addToGroup_snd_ne_nil hgs) es []
    (fun g hg => absurd hg (List.not_mem_nil g))

theorem mem_entryDates_addOccurrence {m : List ResolvedUnavailability}
    {d k : Int} {ws : List TimeWindow} :
    k ∈ entryDates (addOccurrence m d ws) ↔ k ∈ entryDates m ∨ k = d := by
  induction m with
  | nil => simp [addOccurrence, entryDates]
  | cons r rest ih =>
    simp only [addOccurrence]
    split
    · rename_i hr
      simp only [entryDates, List.map_cons, List.mem_cons]
      constructor
      · rintro (h | h)
        · exact Or.inl (Or.inl h)
        · exact Or.inl (Or.inr h)
      · rintro (⟨h | h⟩ | h)
        · exact Or.inl h
        · exact Or.inr h
        · exact Or.inl (h ▸ hr ▸ rfl)
    · simp only [entryDates, List.map_cons, List.mem_cons] at ih ⊢
      rw [ih, or_assoc]

theorem mem_entryDates_setEntry {m : List ResolvedUnavailability}
    {d k : Int} {ws : List TimeWindow} :
    k ∈ entryDates (setEntry m d ws) ↔ k ∈ entryDates m ∨ k = d := by
  induction m with
  | nil => simp [setEntry, entryDates]
  | cons r rest ih =>
    simp only [setEntry]
    split
    · rename_i hr
      simp only [entryDates, List.map_cons, List.mem_cons]
      constructor
      · rintro (h | h)
        · exact Or.inr h
        · exact Or.inl (Or.inr h)
      · rintro (⟨h | h⟩ | h)
        · exact Or.inl (h.trans hr)
        · exact Or.inr h
        · exact Or.inl h
    · simp only [entryDates, List.map_cons, List.mem_cons] at ih ⊢
      rw [ih, or_assoc]

theorem addOccurrence_nodup {m : List ResolvedUnavailability}
    {d : Int} {ws : List TimeWindow} (h : (entryDates m).Nodup) :
    (entryDates (addOccurrence m d ws)).Nodup := by
  induction m with
  | nil => simp [addOccurrence, entryDates]
  | cons r rest ih =>
    simp only [entryDates, List.map_cons, List.nodup_cons] at h
    simp only [addOccurrence]
    split
    · rename_i hr
      simpa only [entryDates, List.map_cons, List.nodup_cons] using h
    · rename_i hr
      simp only [entryDates, List.map_cons, List.nodup_cons]
      refine ⟨?_, ih h.2⟩
      rw [show List.map (fun x => x.date) (addOccurrence rest d ws) =
        entryDates (addOccurrence rest d ws) from rfl, mem_entryDates_addOccurrence]
      rintro (hmem | hmem)
      · exact h.1 hmem
      · exact hr hmem

theorem setEntry_nodup {m : List ResolvedUnavailability}
    {d : Int} {ws : List TimeWindow} (h : (entryDates m).Nodup) :
    (entryDates (setEntry m d ws)).Nodup := by
  induction m with
  | nil => simp [setEntry, entryDates]
  | cons r rest ih =>
    simp only [entryDates, List.map_cons, List.nodup_cons] at h
    simp only [setEntry]
    split
    · rename_i hr
      simp only [entryDates, List.map_cons, List.nodup_cons]
      exact ⟨hr ▸ h.1, h.2⟩
    · rename_i hr
      simp only [entryDates, List.map_cons, List.nodup_cons]
      refine ⟨?_, ih h.2⟩
      rw [show List.map (fun x => x.date) (setEntry rest d ws) =
        entryDates (setEntry rest d ws) from rfl, mem_entryDates_setEntry]
      rintro (hmem | hmem)
      · exact h.1 hmem
      · exact hr hmem

theorem mem_setEntry {m : List ResolvedUnavailability}
    {d : Int} {ws : List TimeWindow} {r : ResolvedUnavailability}
    (hnd : (entryDates m).Nodup) (hr : r ∈ setEntry m d ws) :
    r = ⟨d, ws⟩ ∨ (r ∈ m ∧ r.date ≠ d) := by
  induction m with
  | nil =>
    simp only [setEntry, List.mem_singleton] at hr
    exact Or.inl hr
  | cons x rest ih =>
    simp only [entryDates, List.map_cons, List.nodup_cons] at hnd
    simp only [setEntry] at hr
    split at hr
    · rename_i hx
      rcases List.mem_cons.mp hr with hr | hr
      · exact Or.inl hr
      · refine Or.inr ⟨List.mem_cons_of_mem x hr, ?_⟩
        intro hdate
        exact hnd.1 (hx ▸ hdate ▸ List.mem_map_of_mem (fun s => s.date) hr)
    · rename_i hx
      rcases List.mem_cons.mp hr with hr | hr
      · exact Or.inr ⟨hr ▸ List.mem_cons_self x rest, hr ▸ hx⟩
      · rcases ih hnd.2 hr with h | h
        · exact Or.inl h
        · exact Or.inr ⟨List.mem_cons_of_mem x h.1, h.2⟩

theorem expandRulesPhase_nodup (rules : List UnavailabilityRule)
    (fromDate toDate : Int) :
    (entryDates (expandRulesPhase rules fromDate toDate)).Nodup := by
  unfold expandRulesPhase
  refine foldl_preserve (P := fun m => (entryDates m).Nodup) ?_ rules [] (by simp [entryDates])
  intro m rule hm
  exact foldl_preserve (P := fun m => (entryDates m).Nodup)
    (fun acc occ hacc => addOccurrence_nodup hacc) _ m hm

/-- Every entry coming out of the exception phase either carries a merged
window list, or is an untouched rule-phase entry whose date has no
exception group. -/
theorem applyExceptionPhase_spec :
    ∀ (groups : List (Int × List UnavailabilityException))
      (m : List ResolvedUnavailability),
      (entryDates m).Nodup →
      (∀ g ∈ groups, g.2 ≠ []) →
      ∀ r ∈ applyExceptionPhase m groups,
        (∃ w, r.windows = mergeWindows w) ∨
        (r ∈ m ∧ r.date ∉ groups.map Prod.fst) := by
  intro groups
  induction groups with
  | nil =>
    intro m hnd hne r hr
    exact Or.inr ⟨hr, by simp⟩
  | cons g gs ih =>
    intro m hnd hne r hr
    have hg2 : g.2 ≠ [] := hne g (List.mem_cons_self g gs)
    have hlen : 0 < g.2.length := List.length_pos.mpr hg2
    simp only [applyExceptionPhase, List.foldl_cons] at hr
    rw [if_pos (Or.inr hlen)] at hr
    have hstep := ih (setEntry m g.1
        (mergeWindows (applyDateExceptions
          (match findEntry m g.1 with
           | some r => r.windows
           | none => []) g.2 g.1)))
      (setEntry_nodup hnd)
      (fun x hx => hne x (List.mem_cons_of_mem g hx)) r hr
    rcases hstep with h | ⟨hmem, hdate⟩
    · exact Or.inl h
    · rcases mem_setEntry hnd hmem with h | ⟨hmem2, hdate2⟩
      · exact Or.inl ⟨_, congrArg ResolvedUnavailability.windows h⟩
      · refine Or.inr ⟨hmem2, ?_⟩
        simp only [List.map_cons, List.mem_cons]
        rintro (h | h)
        · exact hdate2 h
        · exact hdate h

/-! ### Inverted-range behaviour of the engine -/

theorem dateRange_nil {fromDate toDate : Int} (h : toDate < fromDate) :
    dateRange fromDate toDate = [] := by
  unfold dateRange
  have hz : (toDate + 1 - fromDate).toNat = 0 := by omega
  rw [hz]
  rfl

theorem expandWeeklyRule_inverted (rule : UnavailabilityRule)
    {fromDate toDate : Int} (h : toDate < fromDate) :
    expandWeeklyRule rule fromDate toDate = [] := by
  unfold expandWeeklyRule
  rw [dateRange_nil h]
  rfl

theorem expandRulesPhase_inverted (rules : List UnavailabilityRule)
    {fromDate toDate : Int} (h : toDate < fromDate) :
    expandRulesPhase rules fromDate toDate = [] := by
  unfold expandRulesPhase
  induction rules with
  | nil => rfl
  | cons r rs ih =>
    rw [List.foldl_cons, expandWeeklyRule_inverted r h]
    exact ih

theorem resolveUnavailability_inverted (rules : List UnavailabilityRule)
    (exceptions : List UnavailabilityException)
    {fromDate toDate : Int} (h : toDate < fromDate) :
    resolveUnavailability rules exceptions fromDate toDate = [] := by
  unfold resolveUnavailability
  have hfil : exceptions.filter (fun e =>
      decide (fromDate ≤ e.dateLocal) && decide (e.dateLocal ≤ toDate)) = [] := by
    rw [List.filter_eq_nil_iff]
    intro e he
    simp only [Bool.and_eq_true, decide_eq_true_eq, not_and]
    omega
  rw [hfil, expandRulesPhase_inverted _ h]
  rfl

/-! ### Merged-output lemma for exception dates -/

theorem resolveUnavailability_merged_of_exception
    {rules : List UnavailabilityRule} {exceptions : List UnavailabilityException}
    {fromDate toDate : Int} {r : ResolvedUnavailability}
    (hr : r ∈ resolveUnavailability rules exceptions fromDate toDate)
    (he : ∃ e ∈ exceptions, e.dateLocal = r.date ∧
      fromDate ≤ e.dateLocal ∧ e.dateLocal ≤ toDate) :
    r.windows = mergeWindows r.windows := by
  obtain ⟨e, hemem, hedate, hlo, hhi⟩ := he
  unfold resolveUnavailability at hr
  have hr2 := mem_sortBy.mp hr
  have hspec := applyExceptionPhase_spec _ _
    (expandRulesPhase_nodup _ fromDate toDate) groupByDate_snd_ne_nil r hr2
  rcases hspec with ⟨w, hw⟩ | ⟨_, hnotin⟩
  · rw [hw, mergeWindows_idem]
  · exfalso
    apply hnotin
    apply mem_keys_groupByDate.mpr
    refine ⟨e, mem_sortBy.mpr (List.mem_filter.mpr ⟨hemem, ?_⟩), hedate⟩
    simp only [Bool.and_eq_true, decide_eq_true_eq]
    exact ⟨hlo, hhi⟩

theorem perm_eq_of_length_le_one {l₁ l₂ : List α}
    (h : List.Perm l₁ l₂) (hl : l₁.length ≤ 1) : l₁ = l₂ := by
  cases l₁ with
  | nil => rw [(List.perm_nil.mp h.symm)]
  | cons a t =>
    cases t with
    | nil => exact (List.perm_singleton.mp h.symm).symm
    | cons b t2 => simp at hl

/-! ## Claim theorems -/

/-- Claim C1 (code bug evaluation): for the overnight rule 22:00-06:00 on
day 0 (1970-01-01), the expansion yields a first window from 22:00 to the
end of day 0, but the second window runs from the start of day 1
(86400000) back to 06:00 of day 0 (21600000) — its end precedes its
start, instead of being 06:00 of day 1 (108000000) as the claim states. -/
theorem c1_overnight_evaluation :
    createWindowsForRule ⟨false, some ⟨22, 0⟩, some ⟨6, 0⟩⟩ 0 =
      [⟨79200000, 86399999⟩, ⟨86400000, 21600000⟩] ∧
    (21600000 : Int) < 86400000 ∧
    createWindowsForRule ⟨false, some ⟨22, 0⟩, some ⟨6, 0⟩⟩ 0 ≠
      [⟨79200000, 86399999⟩, ⟨86400000, 108000000⟩] ∧
    createWindowsForRule ⟨false, some ⟨22, 0⟩, some ⟨22, 0⟩⟩ 0 =
      [⟨79200000, 79200000⟩] := by
  refine ⟨by decide, by decide, by decide, by decide⟩

/-- Claim C6: merge output is sorted ascending by start and pairwise
non-overlapping; merging two sorted windows folds them exactly when
`next.start <= acc.end`, taking the maximum end; merge is idempotent; and
merge of the empty list is the empty list. -/
theorem c6_merge_spec :
    (∀ w : List TimeWindow,
      (mergeWindows w).Pairwise (fun a b => a.start ≤ b.start ∧ a.stop < b.start)) ∧
    (∀ w : List TimeWindow, mergeWindows (mergeWindows w) = mergeWindows w) ∧
    mergeWindows [] = [] ∧
    (∀ a b : TimeWindow, a.start ≤ b.start →
      mergeWindows [a, b] =
        if b.start ≤ a.stop then [⟨a.start, max a.stop b.stop⟩] else [a, b]) := by
  refine ⟨mergeWindows_pairwise, mergeWindows_idem, rfl, ?_⟩
  intro a b hab
  have hs : sortBy (fun v => v.start) [a, b] = [a, b] := by
    simp [sortBy, insertBy, hab]
  unfold mergeWindows
  rw [hs]
  show mergeLoop a [b] = _
  unfold mergeLoop
  by_cases hba : b.start ≤ a.stop
  · rw [if_pos hba, if_pos hba]
    unfold mergeLoop
    have : (if a.stop < b.stop then b.stop else a.stop) = max a.stop b.stop := by
      rcases lt_or_le a.stop b.stop with h | h
      · rw [if_pos h, max_eq_right (le_of_lt h)]
      · rw [if_neg (not_lt.mpr h), max_eq_left h]
    rw [this]
  · rw [if_neg hba, if_neg hba]
    rfl

/-- Witness for C6 at a concrete window list and window pair. -/
theorem c6_merge_spec_witness :
    (mergeWindows [⟨5, 6⟩, ⟨0, 10⟩]).Pairwise
      (fun a b => a.start ≤ b.start ∧ a.stop < b.start) ∧
    mergeWindows (mergeWindows [⟨5, 6⟩, ⟨0, 10⟩]) = mergeWindows [⟨5, 6⟩, ⟨0, 10⟩] ∧
    ((0 : Int) ≤ 1 ∧
      mergeWindows [⟨0, 2⟩, ⟨1, 3⟩] =
        if (1 : Int) ≤ 2 then [⟨0, max 2 3⟩] else [⟨0, 2⟩, ⟨1, 3⟩]) := by
  refine ⟨c6_merge_spec.1 _, c6_merge_spec.2.1 _, by decide,
    c6_merge_spec.2.2.2 ⟨0, 2⟩ ⟨1, 3⟩ (by decide)⟩

/-- Claim C7 (counterexample): `subtract(w, [])` returns `w` unchanged,
not `merge(w)` — witnessed by an overlapping pair the merge would fold —
and `subtract(w, w)` is not empty for a degenerate zero-length window,
which its own copy does not remove under the half-open keep test. -/
theorem c7_counterexample :
    subtractWindows [⟨0, 2⟩, ⟨1, 3⟩] [] ≠ mergeWindows [⟨0, 2⟩, ⟨1, 3⟩] ∧
    subtractWindows [⟨5, 5⟩] [⟨5, 5⟩] ≠ [] := by
  refine ⟨by decide, by decide⟩

/-- Claim C7 (amended): `subtract(w, w)` is empty for every window list
whose windows are nonempty (`start < end`), and `subtract(w, [])` returns
`w` itself unchanged (the result is not merged; callers merge afterward if
needed). -/
theorem c7_subtract_spec :
    (∀ w : List TimeWindow, (∀ v ∈ w, v.start < v.stop) →
      subtractWindows w w = []) ∧
    (∀ w : List TimeWindow, subtractWindows w [] = w) := by
  exact ⟨fun w h => subtractWindows_self h, subtractWindows_nil⟩

/-- Witness for C7 (amended) at a concrete two-window list. -/
theorem c7_subtract_spec_witness :
    ((∀ v ∈ [TimeWindow.mk 0 10, TimeWindow.mk 5 6], v.start < v.stop) ∧
      subtractWindows [⟨0, 10⟩, ⟨5, 6⟩] [⟨0, 10⟩, ⟨5, 6⟩] = []) ∧
    subtractWindows [⟨0, 2⟩, ⟨1, 3⟩] [] = [⟨0, 2⟩, ⟨1, 3⟩] := by
  refine ⟨⟨by decide, c7_subtract_spec.1 _ (by decide)⟩, c7_subtract_spec.2 _⟩

/-- Claim C9 (counterexample): called directly with an inverted range,
the resolver signals nothing: it returns the normal empty result, even
for a rule set that would produce output were the bounds swapped. -/
theorem c9_counterexample :
    resolveUnavailability
      [⟨[1, 2, 3, 4, 5, 6, 7], true, none, none, none, none, .ACTIVE⟩] [] 5 3 = [] ∧
    resolveUnavailability
      [⟨[1, 2, 3, 4, 5, 6, 7], true, none, none, none, none, .ACTIVE⟩] [] 3 5 ≠ [] := by
  refine ⟨by decide, by decide⟩

/-- Claim C9 (amended): the inverted-range rejection lives in the
resolution endpoint, which throws the invalid-argument error before
invoking the engine and never swaps the bounds; the engine itself, called
with `fromDate > toDate`, returns an empty normal result. -/
theorem c9_inverted_range (rules : List UnavailabilityRule)
    (exceptions : List UnavailabilityException) (fromDate toDate : Int)
    (h : fromDate > toDate) :
    getUnavailability rules exceptions fromDate toDate =
      Except.error "fromDate must be before or equal to toDate" ∧
    resolveUnavailability rules exceptions fromDate toDate = [] := by
  constructor
  · unfold getUnavailability
    rw [if_pos h]
  · exact resolveUnavailability_inverted rules exceptions h

/-- Witness for C9 (amended) at a concrete inverted range. -/
theorem c9_inverted_range_witness :
    (5 : Int) > 3 ∧
    getUnavailability [] [] 5 3 =
      Except.error "fromDate must be before or equal to toDate" ∧
    resolveUnavailability [] [] 5 3 = [] := by
  refine ⟨by decide, (c9_inverted_range [] [] 5 3 (by decide)).1,
    (c9_inverted_range [] [] 5 3 (by decide)).2⟩

/-- Claim C5 (counterexample): two active rules whose windows overlap on
the same matching date, with no exceptions, resolve to a day whose window
list is the raw unmerged concatenation — not equal to its own merge, so
the resolver output is not always normalized. -/
theorem c5_counterexample :
    resolveUnavailability
      [⟨[4], false, some ⟨9, 0⟩, some ⟨12, 0⟩, none, none, .ACTIVE⟩,
       ⟨[4], false, some ⟨10, 0⟩, some ⟨13, 0⟩, none, none, .ACTIVE⟩] [] 0 0 =
      [⟨0, [⟨32400000, 43200000⟩, ⟨36000000, 46800000⟩]⟩] ∧
    ¬ ([TimeWindow.mk 32400000 43200000, TimeWindow.mk 36000000 46800000] =
        mergeWindows [⟨32400000, 43200000⟩, ⟨36000000, 46800000⟩]) := by
  refine ⟨by decide, by decide⟩

/-- Claim C5 (amended): every ResolvedDay whose date carries at least one
in-range exception has a window list equal to its own merge (sorted,
non-overlapping, non-adjacent); dates with only rule-derived windows and
no exceptions are returned as accumulated and may be unmerged. -/
theorem c5_merged_on_exception_dates (rules : List UnavailabilityRule)
    (exceptions : List UnavailabilityException) (fromDate toDate : Int)
    (r : ResolvedUnavailability)
    (hr : r ∈ resolveUnavailability rules exceptions fromDate toDate)
    (he : ∃ e ∈ exceptions, e.dateLocal = r.date ∧
      fromDate ≤ e.dateLocal ∧ e.dateLocal ≤ toDate) :
    r.windows = mergeWindows r.windows :=
  resolveUnavailability_merged_of_exception hr he

/-- Witness for C5 (amended): a rule day carrying an ADD exception
resolves to a merged window list. -/
theorem c5_merged_on_exception_dates_witness :
    ResolvedUnavailability.mk 0 [⟨28800000, 32400000⟩, ⟨36000000, 46800000⟩] ∈
      resolveUnavailability
        [⟨[4], false, some ⟨10, 0⟩, some ⟨13, 0⟩, none, none, .ACTIVE⟩]
        [⟨0, .ADD, false, some ⟨8, 0⟩, some ⟨9, 0⟩⟩] 0 0 ∧
    (ResolvedUnavailability.mk 0 [⟨28800000, 32400000⟩, ⟨36000000, 46800000⟩]).windows =
      mergeWindows (ResolvedUnavailability.mk 0
        [⟨28800000, 32400000⟩, ⟨36000000, 46800000⟩]).windows := by
  refine ⟨by decide, ?_⟩
  exact c5_merged_on_exception_dates
    [⟨[4], false, some ⟨10, 0⟩, some ⟨13, 0⟩, none, none, .ACTIVE⟩]
    [⟨0, .ADD, false, some ⟨8, 0⟩, some ⟨9, 0⟩⟩] 0 0
    ⟨0, [⟨28800000, 32400000⟩, ⟨36000000, 46800000⟩]⟩ (by decide)
    ⟨⟨0, .ADD, false, some ⟨8, 0⟩, some ⟨9, 0⟩⟩, by decide, by decide, by decide, by decide⟩

/-- Claim C2: for every date the resolver applies its exceptions in the
fixed priority order REPLACE, then REMOVE, then ADD, regardless of the
order the records were supplied (the stable priority sort rearranges any
input list into the three kind groups); REPLACE discards the accumulated
working set in favour of the exception's own windows, REMOVE subtracts
them, ADD merges the union; and with at most one exception of each kind
the per-date result is invariant under permutation of the supplied
records. -/
theorem c2_exception_order :
    (∀ (w : List TimeWindow) (es : List UnavailabilityException) (d : Int),
      applyDateExceptions w es d =
        (es.filter (fun e => decide (e.type = ExceptionType.REPLACE)) ++
         es.filter (fun e => decide (e.type = ExceptionType.REMOVE)) ++
         es.filter (fun e => decide (e.type = ExceptionType.ADD))).foldl
          (fun acc e => applyException acc e d) w) ∧
    (∀ (w : List TimeWindow) (e : UnavailabilityException) (d : Int),
      (e.type = ExceptionType.REPLACE →
        applyException w e d = createWindowsForRule e.spec d) ∧
      (e.type = ExceptionType.REMOVE →
        applyException w e d = subtractWindows w (createWindowsForRule e.spec d)) ∧
      (e.type = ExceptionType.ADD →
        applyException w e d = mergeWindows (w ++ createWindowsForRule e.spec d))) ∧
    (∀ (w : List TimeWindow) (es₁ es₂ : List UnavailabilityException) (d : Int),
      List.Perm es₁ es₂ →
      (es₁.filter (fun e => decide (e.type = ExceptionType.REPLACE))).length ≤ 1 →
      (es₁.filter (fun e => decide (e.type = ExceptionType.REMOVE))).length ≤ 1 →
      (es₁.filter (fun e => decide (e.type = ExceptionType.ADD))).length ≤ 1 →
      applyDateExceptions w es₁ d = applyDateExceptions w es₂ d) := by
  refine ⟨?_, ?_, ?_⟩
  · intro w es d
    unfold applyDateExceptions
    rw [sortBy_priority_decomposition]
  · intro w e d
    refine ⟨?_, ?_, ?_⟩ <;> intro ht <;>
      simp [applyException, ht]
  · intro w es₁ es₂ d hperm hc0 hc1 hc2
    unfold applyDateExceptions
    rw [sortBy_priority_decomposition, sortBy_priority_decomposition]
    have h0 := perm_eq_of_length_le_one
      (hperm.filter (fun e => decide (e.type = ExceptionType.REPLACE))) hc0
    have h1 := perm_eq_of_length_le_one
      (hperm.filter (fun e => decide (e.type = ExceptionType.REMOVE))) hc1
    have h2 := perm_eq_of_length_le_one
      (hperm.filter (fun e => decide (e.type = ExceptionType.ADD))) hc2
    rw [h0, h1, h2]

/-- Witness for C2: a REPLACE, REMOVE, ADD triple supplied in reverse
order is applied in priority order, and the result matches the
permutation-invariance clause at a concrete input. -/
theorem c2_exception_order_witness :
    applyDateExceptions [⟨0, 100⟩]
      [⟨0, ExceptionType.ADD, false, some ⟨1, 0⟩, some ⟨2, 0⟩⟩,
       ⟨0, ExceptionType.REPLACE, false, some ⟨3, 0⟩, some ⟨5, 0⟩⟩] 0 =
      (([⟨0, ExceptionType.ADD, false, some ⟨1, 0⟩, some ⟨2, 0⟩⟩,
         ⟨0, ExceptionType.REPLACE, false, some ⟨3, 0⟩, some ⟨5, 0⟩⟩] :
          List UnavailabilityException).filter
          (fun e => decide (e.type = ExceptionType.REPLACE)) ++
       ([⟨0, ExceptionType.ADD, false, some ⟨1, 0⟩, some ⟨2, 0⟩⟩,
         ⟨0, ExceptionType.REPLACE, false, some ⟨3, 0⟩, some ⟨5, 0⟩⟩] :
          List UnavailabilityException).filter
          (fun e => decide (e.type = ExceptionType.REMOVE)) ++
       ([⟨0, ExceptionType.ADD, false, some ⟨1, 0⟩, some ⟨2, 0⟩⟩,
         ⟨0, ExceptionType.REPLACE, false, some ⟨3, 0⟩, some ⟨5, 0⟩⟩] :
          List UnavailabilityException).filter
          (fun e => decide (e.type = ExceptionType.ADD))).foldl
        (fun acc e => applyException acc e 0) [⟨0, 100⟩] ∧
    (applyException [⟨0, 100⟩]
        ⟨0, ExceptionType.REPLACE, false, some ⟨3, 0⟩, some ⟨5, 0⟩⟩ 0 =
      createWindowsForRule
        (UnavailabilityException.mk 0 ExceptionType.REPLACE false
          (some ⟨3, 0⟩) (some ⟨5, 0⟩)).spec 0) := by
  refine ⟨c2_exception_order.1 [⟨0, 100⟩] _ 0, ?_⟩
  exact (c2_exception_order.2.1 [⟨0, 100⟩]
    ⟨0, ExceptionType.REPLACE, false, some ⟨3, 0⟩, some ⟨5, 0⟩⟩ 0).1 rfl

/-- Claim C3: the resolver-backed shift-date check blocks exactly when
some window of the resolved day for the shift date overlaps the shift
interval under the half-open test (`shiftStart < window.end` and
`shiftEnd > window.start`); when the date is absent from the resolution
result or resolves to no windows, the shift is allowed and not blocked. -/
theorem c3_check_unavailability (rules : List UnavailabilityRule)
    (exceptions : List UnavailabilityException) (date s e : Int) :
    ((checkUnavailability rules exceptions date s e).blocked = true ↔
      ∃ day, lookupResolvedDay rules exceptions date = some day ∧
        ∃ w ∈ day.windows, s < w.stop ∧ w.start < e) ∧
    ((∀ day, lookupResolvedDay rules exceptions date = some day →
        day.windows = []) →
      (checkUnavailability rules exceptions date s e).allowed = true ∧
      (checkUnavailability rules exceptions date s e).blocked = false) := by
  constructor
  · unfold checkUnavailability
    split
    · rename_i heq
      constructor
      · intro h
        exact absurd h (by simp)
      · rintro ⟨day, hday, _⟩
        rw [heq] at hday
        exact absurd hday (by simp)
    · rename_i day heq
      by_cases hempty : day.windows.isEmpty = true
      · rw [if_pos hempty]
        have hnil : day.windows = [] := List.isEmpty_iff.mp hempty
        constructor
        · intro h
          exact absurd h (by simp)
        · rintro ⟨day2, hday2, w, hw, _, _⟩
          rw [heq] at hday2
          have hdd : day = day2 := Option.some.inj hday2
          subst hdd
          rw [hnil] at hw
          exact absurd hw (List.not_mem_nil w)
      · rw [if_neg hempty]
        by_cases hany : day.windows.any (fun w =>
            decide (s < w.stop) && decide (e > w.start)) = true
        · rw [if_pos hany]
          constructor
          · intro _
            obtain ⟨w, hw, hp⟩ := List.any_eq_true.mp hany
            simp only [Bool.and_eq_true, decide_eq_true_eq] at hp
            exact ⟨day, heq, w, hw, hp.1, hp.2⟩
          · intro _
            rfl
        · rw [if_neg hany]
          constructor
          · intro h
            exact absurd h (by simp)
          · rintro ⟨day2, hday2, w, hw, h1, h2⟩
            rw [heq] at hday2
            have hdd : day = day2 := Option.some.inj hday2
            subst hdd
            refine absurd (List.any_eq_true.mpr ⟨w, hw, ?_⟩) hany
            simp only [Bool.and_eq_true, decide_eq_true_eq]
            exact ⟨h1, h2⟩
  · intro hw
    unfold checkUnavailability
    split
    · exact ⟨rfl, rfl⟩
    · rename_i day heq
      have hnil : day.windows = [] := hw day heq
      rw [if_pos (by rw [hnil]; rfl)]
      exact ⟨rfl, rfl⟩

/-- Witness for C3: a 09:30-09:45 blocking rule on day 0 blocks the
09:00-10:00 shift (overlap, not containment). -/
theorem c3_check_unavailability_witness :
    ((checkUnavailability
        [⟨[4], false, some ⟨9, 30⟩, some ⟨9, 45⟩, none, none, .ACTIVE⟩] []
        0 32400000 36000000).blocked = true ↔
      ∃ day, lookupResolvedDay
          [⟨[4], false, some ⟨9, 30⟩, some ⟨9, 45⟩, none, none, .ACTIVE⟩] [] 0 =
          some day ∧
        ∃ w ∈ day.windows, 32400000 < w.stop ∧ w.start < 36000000) ∧
    (checkUnavailability
        [⟨[4], false, some ⟨9, 30⟩, some ⟨9, 45⟩, none, none, .ACTIVE⟩] []
        0 32400000 36000000).blocked = true := by
  refine ⟨(c3_check_unavailability
    [⟨[4], false, some ⟨9, 30⟩, some ⟨9, 45⟩, none, none, .ACTIVE⟩] []
    0 32400000 36000000).1, by decide⟩

/-- Claim C10: both constraint checkers return verdicts in which the
allowed flag is the negation of the blocked flag, on every input. -/
theorem c10_allowed_iff_not_blocked :
    (∀ (rules : List UnavailabilityRule)
       (exceptions : List UnavailabilityException) (date s e : Int),
      (checkUnavailability rules exceptions date s e).allowed =
        !(checkUnavailability rules exceptions date s e).blocked) ∧
    (∀ (availability : Option EmployeeAvailability) (shiftDate s e : Int),
      (checkAvailability availability shiftDate s e).allowed =
        !(checkAvailability availability shiftDate s e).blocked) := by
  constructor
  · intro rules exceptions date s e
    unfold checkUnavailability
    repeat' split
    all_goals rfl
  · intro availability shiftDate s e
    unfold checkAvailability
    repeat' split
    all_goals rfl

/-- Claim C4: with no availability record the shift is allowed; with a
record whose effective bounds admit the shift date and no date-specific
override, the shift is allowed exactly when it is contained (not merely
overlapping) in some recurring window of the shift date's weekday, and
zero windows for that weekday block it with the no-availability reason. -/
theorem c4_check_availability (a : EmployeeAvailability) (d s e : Int)
    (hb1 : ∀ f, a.effectiveFrom = some f → f ≤ d)
    (hb2 : ∀ t, a.effectiveTo = some t → d ≤ t)
    (hov : a.overrides.filter (fun o => decide (o.overrideDate = d)) = []) :
    ((checkAvailability (some a) d s e).allowed = true ↔
      ∃ w ∈ a.windows.filter (fun w => decide (w.dayOfWeek = getDayOfWeek d)),
        timeStringToMinutes w.startTime ≤ timeToMinutes s ∧
        timeToMinutes e ≤ timeStringToMinutes w.endTime) ∧
    (a.windows.filter (fun w => decide (w.dayOfWeek = getDayOfWeek d)) = [] →
      checkAvailability (some a) d s e =
        ⟨false, true, true, some "No availability defined for this day"⟩) ∧
    (∀ d2 s2 e2 : Int,
      checkAvailability none d2 s2 e2 = ⟨true, false, false, none⟩) := by
  have hnf : ¬ ∃ f, a.effectiveFrom = some f ∧ d < f := by
    rintro ⟨f, hf, hlt⟩
    exact absurd (hb1 f hf) (not_le.mpr hlt)
  have hnt : ¬ ∃ t, a.effectiveTo = some t ∧ t < d := by
    rintro ⟨t, ht, hlt⟩
    exact absurd (hb2 t ht) (not_le.mpr hlt)
  refine ⟨?_, ?_, fun d2 s2 e2 => rfl⟩
  · simp only [checkAvailability]
    rw [if_neg hnf, if_neg hnt]
    split
    · rename_i override rest hmatch
      rw [hov] at hmatch
      exact absurd hmatch (by simp)
    · by_cases hFe : (a.windows.filter
          (fun w => decide (w.dayOfWeek = getDayOfWeek d))).isEmpty = true
      · rw [if_pos hFe]
        have hnil := List.isEmpty_iff.mp hFe
        constructor
        · intro h
          exact absurd h (by simp)
        · rintro ⟨w, hw, _⟩
          rw [hnil] at hw
          exact absurd hw (List.not_mem_nil w)
      · rw [if_neg hFe]
        by_cases hA : (a.windows.filter
            (fun w => decide (w.dayOfWeek = getDayOfWeek d))).any (fun w =>
            decide (timeStringToMinutes w.startTime ≤ timeToMinutes s) &&
            decide (timeToMinutes e ≤ timeStringToMinutes w.endTime)) = true
        · rw [if_pos hA]
          constructor
          · intro _
            obtain ⟨w, hw, hp⟩ := List.any_eq_true.mp hA
            simp only [Bool.and_eq_true, decide_eq_true_eq] at hp
            exact ⟨w, hw, hp.1, hp.2⟩
          · intro _
            rfl
        · rw [if_neg hA]
          constructor
          · intro h
            exact absurd h (by simp)
          · rintro ⟨w, hw, h1, h2⟩
            refine absurd (List.any_eq_true.mpr ⟨w, hw, ?_⟩) hA
            simp only [Bool.and_eq_true, decide_eq_true_eq]
            exact ⟨h1, h2⟩
  · intro hFnil
    simp only [checkAvailability]
    rw [if_neg hnf, if_neg hnt]
    split
    · rename_i override rest hmatch
      rw [hov] at hmatch
      exact absurd hmatch (by simp)
    · rw [if_pos (by rw [hFnil]; rfl)]

/-- Witness for C4: an 08:00-09:30 Thursday window; the 08:30-09:15
shift on day 0 (a Thursday) is allowed by containment. -/
theorem c4_check_availability_witness :
    ((checkAvailability
        (some ⟨none, none, [⟨.THURSDAY, ⟨8, 0⟩, ⟨9, 30⟩⟩], []⟩)
        0 30600000 33300000).allowed = true ↔
      ∃ w ∈ (EmployeeAvailability.mk none none
          [⟨.THURSDAY, ⟨8, 0⟩, ⟨9, 30⟩⟩] []).windows.filter
          (fun w => decide (w.dayOfWeek = getDayOfWeek 0)),
        timeStringToMinutes w.startTime ≤ timeToMinutes 30600000 ∧
        timeToMinutes 33300000 ≤ timeStringToMinutes w.endTime) ∧
    (checkAvailability
        (some ⟨none, none, [⟨.THURSDAY, ⟨8, 0⟩, ⟨9, 30⟩⟩], []⟩)
        0 30600000 33300000).allowed = true ∧
    (checkAvailability
        (some ⟨none, none, [⟨.THURSDAY, ⟨8, 0⟩, ⟨9, 30⟩⟩], []⟩)
        0 32400000 36000000).allowed = false := by
  refine ⟨(c4_check_availability
      ⟨none, none, [⟨.THURSDAY, ⟨8, 0⟩, ⟨9, 30⟩⟩], []⟩ 0 30600000 33300000
      (fun f hf => Option.noConfusion hf)
      (fun t ht => Option.noConfusion ht)
      (by decide)).1, by decide, by decide⟩

/-- Claim C8: shift creation rejects with an invalid-argument error
exactly when the interval is inverted or empty, a break value is
negative, or the breaks exceed the duration; otherwise it reports a
conflict identifying a colliding shift exactly when some existing shift
of the employee passes the half-open overlap test, so boundary-touching
shifts do not conflict. -/
theorem c8_create_shift (existing : List Shift)
    (startAt endAt paid unpaid : Int) :
    ((∃ msg, createShift existing startAt endAt paid unpaid =
        CreateShiftResult.badRequest msg) ↔
      (endAt ≤ startAt ∨ paid < 0 ∨ unpaid < 0 ∨
        (paid + unpaid) * 60000 > endAt - startAt)) ∧
    (∀ sh, createShift existing startAt endAt paid unpaid =
        CreateShiftResult.conflict sh →
      sh ∈ existing ∧ sh.startAt < endAt ∧ startAt < sh.endAt) ∧
    (¬ (endAt ≤ startAt ∨ paid < 0 ∨ unpaid < 0 ∨
        (paid + unpaid) * 60000 > endAt - startAt) →
      ((∃ sh, createShift existing startAt endAt paid unpaid =
          CreateShiftResult.conflict sh) ↔
        ∃ sh ∈ existing, sh.startAt < endAt ∧ startAt < sh.endAt)) := by
  unfold createShift
  by_cases h1 : startAt ≥ endAt
  · rw [if_pos h1]
    refine ⟨⟨fun _ => Or.inl h1, fun _ => ⟨_, rfl⟩⟩, ?_, ?_⟩
    · intro sh hc
      exact absurd hc (by simp)
    · intro hvalid
      exact absurd (Or.inl h1) hvalid
  · rw [if_neg h1]
    by_cases h2 : paid < 0 ∨ unpaid < 0
    · rw [if_pos h2]
      have hd : endAt ≤ startAt ∨ paid < 0 ∨ unpaid < 0 ∨
          (paid + unpaid) * 60000 > endAt - startAt := by
        rcases h2 with h | h
        · exact Or.inr (Or.inl h)
        · exact Or.inr (Or.inr (Or.inl h))
      refine ⟨⟨fun _ => hd, fun _ => ⟨_, rfl⟩⟩, ?_, ?_⟩
      · intro sh hc
        exact absurd hc (by simp)
      · intro hvalid
        exact absurd hd hvalid
    · rw [if_neg h2]
      by_cases h3 : (paid + unpaid) * 60000 > endAt - startAt
      · rw [if_pos h3]
        refine ⟨⟨fun _ => Or.inr (Or.inr (Or.inr h3)), fun _ => ⟨_, rfl⟩⟩, ?_, ?_⟩
        · intro sh hc
          exact absurd hc (by simp)
        · intro hvalid
          exact absurd (Or.inr (Or.inr (Or.inr h3))) hvalid
      · rw [if_neg h3]
        split
        · rename_i sh heq
          have hmem := List.mem_of_find?_eq_some heq
          have hp := List.find?_some heq
          simp only [Bool.and_eq_true, decide_eq_true_eq] at hp
          refine ⟨?_, ?_, ?_⟩
          · constructor
            · rintro ⟨msg, hmsg⟩
              exact absurd hmsg (by simp)
            · intro hd
              exfalso
              rcases hd with h | h | h | h
              · exact h1 h
              · exact h2 (Or.inl h)
              · exact h2 (Or.inr h)
              · exact h3 h
          · intro sh2 hc
            injection hc with hsh
            subst hsh
            exact ⟨hmem, hp.1, hp.2⟩
          · intro _
            exact ⟨fun _ => ⟨sh, hmem, hp.1, hp.2⟩, fun _ => ⟨sh, rfl⟩⟩
        · rename_i heq
          have hnone := List.find?_eq_none.mp heq
          refine ⟨?_, ?_, ?_⟩
          · constructor
            · rintro ⟨msg, hmsg⟩
              exact absurd hmsg (by simp)
            · intro hd
              exfalso
              rcases hd with h | h | h | h
              · exact h1 h
              · exact h2 (Or.inl h)
              · exact h2 (Or.inr h)
              · exact h3 h
          · intro sh hc
            exact absurd hc (by simp)
          · intro _
            constructor
            · rintro ⟨sh, hc⟩
              exact absurd hc (by simp)
            · rintro ⟨sh, hmem, hp1, hp2⟩
              exfalso
              apply hnone sh hmem
              simp only [Bool.and_eq_true, decide_eq_true_eq]
              exact ⟨hp1, hp2⟩

/-- Witness for C8: the shifts [09:00,12:01) and [12:00,15:00) conflict,
while the boundary-touching [09:00,12:00) and [12:00,15:00) do not. -/
theorem c8_create_shift_witness :
    ((∃ sh, createShift [⟨1, 32400000, 43260000⟩] 43200000 54000000 0 0 =
        CreateShiftResult.conflict sh) ↔
      ∃ sh ∈ [Shift.mk 1 32400000 43260000],
        sh.startAt < 54000000 ∧ (43200000 : Int) < sh.endAt) ∧
    createShift [⟨1, 32400000, 43200000⟩] 43200000 54000000 0 0 =
      CreateShiftResult.created 43200000 54000000 0 0 := by
  refine ⟨(c8_create_shift [⟨1, 32400000, 43260000⟩]
    43200000 54000000 0 0).2.2 (by decide), by decide⟩

end SWA
